import Mathlib

set_option maxRecDepth 20000

/-!
Shallow embedding of the `bitarray` Go package (`bitarray.go`) and proofs of
the specification claims about it.

Modelling conventions:
* `BitBlock` (Go `uint64`) is embedded as `Nat`; every operation that can wrap
  in 64-bit arithmetic applies an explicit `% 2 ^ 64`.  States constructed by
  the public API keep all blocks `< 2 ^ 64` (invariant `WF`).
* Indices and the capacity are embedded as `Nat`: the interface's numeric
  domain is the whole numbers from 0 up, and Go's truncating division and
  remainder agree with `Nat` division on that domain.
* The occupied counter (Go `int64`, an atomic value) is embedded as `Int`.
* The mutex only serializes operations; sequentially each public operation is
  a pure state transformer `BitArray → BitArray × result`.  `MarkFree`'s
  double-checked `HasRoom` test collapses to a single test sequentially.
-/

namespace BitArr

/-- Word width in bits: Go `blockSize = unsafe.Sizeof(BitBlock(0)) * 8 = 64`. -/
def blockSize : Nat := 64

/-- Go `bitBlockFull = (1 << blockSize) - 1`, the all-ones 64-bit word. -/
def bitBlockFull : Nat := 2 ^ 64 - 1

/-- Go `BitBlockNotFound = -1`. -/
def BitBlockNotFound : Int := -1

/-- Wrapping 64-bit addition (`uint64` `+`). -/
def wadd (a c : Nat) : Nat := (a + c) % 2 ^ 64

/-- Wrapping 64-bit subtraction (`uint64` `-`). -/
def wsub (a c : Nat) : Nat := (a + (2 ^ 64 - c % 2 ^ 64)) % 2 ^ 64

/-- Go `mask(bit) = BitBlock(1) << bit`; a `uint64` shift by `bit ≥ 64`
yields `0`, which the `% 2 ^ 64` reproduces. -/
def mask (bit : Nat) : Nat := (1 <<< bit) % 2 ^ 64

/-- Go `(b BitBlock) value(bit)`: `(b & mask(bit)) != 0`. -/
def BitBlock.value (b bit : Nat) : Bool := b &&& mask bit != 0

/-- Go `(b *BitBlock) mark(bit)`: `*b |= mask(bit)`. -/
def BitBlock.mark (b bit : Nat) : Nat := b ||| mask bit

/-- Go `(b *BitBlock) unmark(bit)`: `*b &^= mask(bit)` (AND NOT; `^m` on a
`uint64` is `m ^^^ bitBlockFull`). -/
def BitBlock.unmark (b bit : Nat) : Nat := b &&& (mask bit ^^^ bitBlockFull)

/-- Go `(b *BitBlock) compareAndMark(bit)`: returns the updated block and
`changed`. -/
def BitBlock.compareAndMark (b bit : Nat) : Nat × Bool :=
  let n := mask bit
  if b &&& n = 0 then (b ||| n, true) else (b, false)

/-- Go `(b *BitBlock) compareAndUnmark(bit)`: returns the updated block and
`changed`. -/
def BitBlock.compareAndUnmark (b bit : Nat) : Nat × Bool :=
  let n := mask bit
  if b &&& n ≠ 0 then (b &&& (n ^^^ bitBlockFull), true) else (b, false)

/-- Go `(b BitBlock) hasRoom()`: `b != bitBlockFull`. -/
def BitBlock.hasRoom (b : Nat) : Bool := b != bitBlockFull

/-- Go `popcount64`: SWAR population count of a `uint64`. -/
def popcount64 (b : Nat) : Nat :=
  let m1 := 0x5555555555555555
  let m2 := 0x3333333333333333
  let m4 := 0x0f0f0f0f0f0f0f0f
  let b1 := wsub b ((b >>> 1) &&& m1)
  let b2 := wadd (b1 &&& m2) ((b1 >>> 2) &&& m2)
  let b3 := wadd b2 (b2 >>> 4) &&& m4
  let b4 := wadd b3 (b3 >>> 8)
  let b5 := wadd b4 (b4 >>> 16)
  let b6 := wadd b5 (b5 >>> 32)
  b6 &&& 0x7f

/-- Go `(b BitBlock) ffz()`: `v := b & (^b - 1)`, then the population count of
`v`.  `blockSize` is fixed at 64, so the `switch` always takes the
`popcount64` branch. -/
def BitBlock.ffz (b : Nat) : Nat :=
  popcount64 (b &&& wsub (b ^^^ bitBlockFull) 1)

/-- Go `BitArray` (the mutex carries no state). -/
structure BitArray where
  blocks : List Nat
  curIndex : Nat
  size : Nat
  capacity : Nat
  count : Int
deriving DecidableEq, Repr

/-- Go `bitIndexAndNum(i) = (i / blockSize, i % blockSize)`. -/
def bitIndexAndNum (i : Nat) : Nat × Nat := (i / blockSize, i % blockSize)

/-- Go `NewBitArray(capacity)`. -/
def NewBitArray (capacity : Nat) : BitArray :=
  let size := capacity / blockSize + 1
  { blocks := List.replicate size 0
    curIndex := 0
    size := size
    capacity := capacity
    count := 0 }

/-- Go `HasRoom()`: `count < capacity`. -/
def HasRoom (b : BitArray) : Bool := b.count < (b.capacity : Int)

/-- Go `IsEmpty()`: `!HasRoom()`. -/
def IsEmpty (b : BitArray) : Bool := !HasRoom b

/-- Go `Len()`: the occupied counter. -/
def Len (b : BitArray) : Int := b.count

/-- Go `Cap()`: the capacity. -/
def Cap (b : BitArray) : Int := (b.capacity : Int)

/-- Go `Reset()`: zero the first `size` blocks and the counter; the cursor is
left unchanged. -/
def Reset (b : BitArray) : BitArray :=
  { b with blocks := b.blocks.mapIdx fun i blk => if i < b.size then 0 else blk
           count := 0 }

/-- Go `Set(index, mark)`: returns the new state and `changed`. -/
def Set (b : BitArray) (index : Nat) (mark : Bool) : BitArray × Bool :=
  let (i, j) := bitIndexAndNum index
  if i < b.size then
    let blk := b.blocks.getD i 0
    if mark then
      let r := BitBlock.compareAndMark blk j
      if r.2 then
        ({ b with blocks := b.blocks.set i r.1, count := b.count + 1 }, true)
      else (b, false)
    else
      let r := BitBlock.compareAndUnmark blk j
      if r.2 then
        ({ b with blocks := b.blocks.set i r.1
                  count := b.count - 1
                  curIndex := if i < b.curIndex then i else b.curIndex }, true)
      else (b, false)
  else (b, false)

/-- Go `Get(index)`. -/
def Get (b : BitArray) (index : Nat) : Bool :=
  let (i, j) := bitIndexAndNum index
  if i < b.size then BitBlock.value (b.blocks.getD i 0) j else false

/-- Go `Mark(index)`: `Set(index, true)`, result discarded. -/
def Mark (b : BitArray) (index : Nat) : BitArray := (Set b index true).1

/-- Go `Unmark(index)`: `Set(index, false)`, result discarded. -/
def Unmark (b : BitArray) (index : Nat) : BitArray := (Set b index false).1

/-- Go `nextFree()` loop: scan at most `fuel` blocks circularly from `cur`;
returns `(found block index?, final cursor)`. -/
def nextFreeGo (blocks : List Nat) (size : Nat) : Nat → Nat → Option Nat × Nat
  | cur, 0 => (none, cur)
  | cur, fuel + 1 =>
    if BitBlock.hasRoom (blocks.getD cur 0) then (some cur, cur)
    else nextFreeGo blocks size ((cur + 1) % size) fuel

/-- Go `MarkFree()`: the sentinel `-1` unless a free bit is found and marked.
Sequentially the double-checked `HasRoom` is a single test. -/
def MarkFree (b : BitArray) : BitArray × Int :=
  if HasRoom b then
    match nextFreeGo b.blocks b.size b.curIndex b.size with
    | (some c, _) =>
      let blk := b.blocks.getD c 0
      let j := BitBlock.ffz blk
      ({ b with blocks := b.blocks.set c (BitBlock.mark blk j)
                curIndex := c
                count := b.count + 1 }, ((c * blockSize + j : Nat) : Int))
    | (none, c) => ({ b with curIndex := c }, BitBlockNotFound)
  else (b, BitBlockNotFound)

/-- A public mutating operation (queries do not change the state, and
`Mark`/`Unmark` are `Set`). -/
inductive Op where
  | set (index : Nat) (mark : Bool)
  | markFree
  | reset
deriving DecidableEq, Repr

/-- Apply one public operation, discarding its result. -/
def applyOp (b : BitArray) : Op → BitArray
  | .set i v => (Set b i v).1
  | .markFree => (MarkFree b).1
  | .reset => Reset b

/-- Run a sequence of public operations. -/
def run (b : BitArray) (ops : List Op) : BitArray := ops.foldl applyOp b

/-- A state is reachable if some sequence of public operations produces it
from a freshly constructed bitmap. -/
def Reachable (b : BitArray) : Prop :=
  ∃ C ops, b = run (NewBitArray C) ops

/-- Well-formedness: the slice length matches `size`, `size` is as allocated
by `NewBitArray`, the cursor is in range and every block fits in 64 bits. -/
def WF (b : BitArray) : Prop :=
  b.blocks.length = b.size ∧ b.size = b.capacity / blockSize + 1 ∧
    b.curIndex < b.size ∧ ∀ i, b.blocks.getD i 0 < 2 ^ 64

/-- The position of the lowest-order clear bit of `b` (specification-side
description of what `ffz` computes). -/
def lowestClear (b : Nat) : Nat :=
  if h : b % 2 = 0 then 0 else lowestClear (b / 2) + 1
termination_by b
decreasing_by exact Nat.div_lt_self (by omega) (by omega)

/-- Number of set bits of a natural number (specification-side; this is the
quantity the occupied counter tracks). -/
def countBits (n : Nat) : Nat :=
  if h : n = 0 then 0 else n % 2 + countBits (n / 2)
termination_by n
decreasing_by exact Nat.div_lt_self (Nat.pos_of_ne_zero h) (by omega)

/-- Iterate `MarkFree` `n` times, collecting the returned indices. -/
def markFreeN (b : BitArray) : Nat → BitArray × List Int
  | 0 => (b, [])
  | n + 1 =>
    let r := MarkFree b
    let rest := markFreeN r.1 n
    (rest.1, r.2 :: rest.2)

/-- The block contents after `k` fresh `MarkFree` calls: block `i` holds the
low `k - 64*i` bits (clamped to `[0, 64]`) set. -/
def canonBlock (k i : Nat) : Nat := 2 ^ min 64 (k - blockSize * i) - 1

/-- The state of a capacity-`C` bitmap after `k` fresh `MarkFree` calls. -/
def canonState (C k : Nat) : BitArray :=
  { blocks := (List.range (C / blockSize + 1)).map (canonBlock k)
    curIndex := (k - 1) / blockSize
    size := C / blockSize + 1
    capacity := C
    count := (k : Int) }

/-- Call sequence exhibiting a `MarkFree` result beyond the capacity (129):
fill indices `0..127`, allocate slot 128 (cursor moves to the last block),
`Reset` (which keeps the cursor on the last block), re-occupy index 128. -/
def spillOps : List Op :=
  (List.range 128).map (fun i => Op.set i true) ++
    [Op.markFree, Op.reset, Op.set 128 true]

/-- Invariant of every state reachable from a capacity-1 bitmap: one block,
cursor pinned at 0, counter equal to the block's population count. -/
def Inv1 (s : BitArray) : Prop :=
  s.capacity = 1 ∧ s.size = 1 ∧ s.curIndex = 0 ∧
    ∃ blk, s.blocks = [blk] ∧ blk < 2 ^ 64 ∧ s.count = (countBits blk : Int)

theorem lowestClear_lt (b : Nat) : ∀ i, i < lowestClear b → b.testBit i = true := by
  induction b using Nat.strong_induction_on with
  | _ b ih =>
    intro i hi
    rw [lowestClear] at hi
    by_cases h : b % 2 = 0
    · simp [h] at hi
    · rw [dif_neg h] at hi
      cases i with
      | zero =>
        rw [Nat.testBit_zero]
        simp only [decide_eq_true_eq]
        omega
      | succ i =>
        rw [Nat.testBit_succ]
        exact ih (b / 2) (Nat.div_lt_self (by omega) (by omega)) i (by omega)

theorem lowestClear_self (b : Nat) : b.testBit (lowestClear b) = false := by
  induction b using Nat.strong_induction_on with
  | _ b ih =>
    rw [lowestClear]
    by_cases h : b % 2 = 0
    · rw [dif_pos h, Nat.testBit_zero]
      simp only [decide_eq_false_iff_not]
      omega
    · rw [dif_neg h, Nat.testBit_succ]
      exact ih (b / 2) (Nat.div_lt_self (by omega) (by omega))

theorem mask_eq_pow {j : Nat} (h : j < 64) : mask j = 2 ^ j := by
  unfold mask
  rw [Nat.shiftLeft_eq, one_mul]
  exact Nat.mod_eq_of_lt (Nat.pow_lt_pow_right one_lt_two h)

theorem mask_lt (j : Nat) : mask j < 2 ^ 64 :=
  Nat.mod_lt _ (by norm_num)

theorem bitBlockFull_testBit (i : Nat) :
    Nat.testBit bitBlockFull i = decide (i < 64) :=
  Nat.testBit_two_pow_sub_one 64 i

theorem bitBlockFull_lt : bitBlockFull < 2 ^ 64 := by
  unfold bitBlockFull; omega

theorem testBit_high (x k i : Nat) : (x / 2 ^ k).testBit i = x.testBit (k + i) := by
  rw [← Nat.shiftRight_eq_div_pow, Nat.testBit_shiftRight]

theorem testBit_ge_64 {b : Nat} (hb : b < 2 ^ 64) {i : Nat} (hi : 64 ≤ i) :
    b.testBit i = false :=
  Nat.testBit_lt_two_pow (lt_of_lt_of_le hb (Nat.pow_le_pow_right (by omega) hi))

theorem popcount64_two_pow_sub_one : ∀ t, t < 64 → popcount64 (2 ^ t - 1) = t := by
  decide

/-- Core correctness of `ffz`: on a word with bits `0..t-1` set and bit `t`
clear, `ffz` returns `t`. -/
theorem ffz_eq (b t : Nat) (hb : b < 2 ^ 64) (ht : t < 64)
    (hlow : ∀ i, i < t → b.testBit i = true) (hbit : b.testBit t = false) :
    BitBlock.ffz b = t := by
  set notb := b ^^^ bitBlockFull with hnotb_def
  have hnotb_lt : notb < 2 ^ 64 := Nat.xor_lt_two_pow hb bitBlockFull_lt
  have hnot_bit : ∀ i, i < 64 → notb.testBit i = !b.testBit i := by
    intro i hi
    rw [hnotb_def, Nat.testBit_xor, bitBlockFull_testBit]
    simp [hi]
  have htbit : notb.testBit t = true := by
    rw [hnot_bit t ht, hbit]; rfl
  have h1le : 1 ≤ notb := by
    rcases Nat.eq_zero_or_pos notb with h0 | h1
    · rw [h0, Nat.zero_testBit] at htbit; exact absurd htbit (by simp)
    · exact h1
  have hdec : wsub notb 1 = notb - 1 := by
    unfold wsub; omega
  have hmod : notb % 2 ^ (t + 1) = 2 ^ t := by
    apply Nat.eq_of_testBit_eq
    intro i
    rw [Nat.testBit_mod_two_pow, Nat.testBit_two_pow]
    by_cases hi : i < t + 1
    · by_cases hit : i = t
      · subst hit; simp [htbit, hi]
      · have hilt : i < t := by omega
        rw [hnot_bit i (by omega), hlow i hilt]
        simp; omega
    · have : ¬ (t = i) := by omega
      simp [hi, this]
  set hq := notb / 2 ^ (t + 1) with hq_def
  have hdiv : notb = 2 ^ (t + 1) * hq + 2 ^ t := by
    conv_lhs => rw [← Nat.div_add_mod notb (2 ^ (t + 1))]
    rw [hmod]
  have hpt : 1 ≤ 2 ^ t := Nat.one_le_two_pow
  have hptlt : 2 ^ t - 1 < 2 ^ (t + 1) := by
    have : 2 ^ t < 2 ^ (t + 1) := Nat.pow_lt_pow_right one_lt_two (by omega)
    omega
  have hm_eq : notb - 1 = 2 ^ (t + 1) * hq + (2 ^ t - 1) := by omega
  set m := notb - 1 with hm_def
  have hm_mod : m % 2 ^ (t + 1) = 2 ^ t - 1 := by
    rw [hm_eq, Nat.mul_add_mod, Nat.mod_eq_of_lt hptlt]
  have hm_div : m / 2 ^ (t + 1) = hq := by
    rw [hm_eq, Nat.mul_add_div (Nat.pos_pow_of_pos _ (by omega)),
      Nat.div_eq_of_lt hptlt, Nat.add_zero]
  have hm_low : ∀ i, i ≤ t → m.testBit i = decide (i < t) := by
    intro i hi
    have h1 : m.testBit i = (m % 2 ^ (t + 1)).testBit i := by
      rw [Nat.testBit_mod_two_pow]
      have hi1 : i < t + 1 := by omega
      simp [hi1]
    rw [h1, hm_mod, Nat.testBit_two_pow_sub_one]
  have hm_high : ∀ i, t < i → m.testBit i = notb.testBit i := by
    intro i hi
    have hsplit : i = (t + 1) + (i - t - 1) := by omega
    rw [hsplit, ← testBit_high m (t + 1) (i - t - 1), hm_div, hq_def,
      testBit_high notb (t + 1) (i - t - 1)]
  have hland : b &&& m = 2 ^ t - 1 := by
    apply Nat.eq_of_testBit_eq
    intro i
    rw [Nat.testBit_land, Nat.testBit_two_pow_sub_one]
    rcases Nat.lt_trichotomy i t with hlt | heq | hgt
    · rw [hlow i hlt, hm_low i (by omega)]
      simp [hlt]
    · subst heq
      simp [hbit]
    · by_cases hi64 : i < 64
      · rw [hm_high i hgt, hnot_bit i hi64]
        simp; omega
      · rw [testBit_ge_64 hb (by omega)]
        simp; omega
  show popcount64 (b &&& wsub (b ^^^ bitBlockFull) 1) = t
  rw [← hnotb_def, hdec, hland]
  exact popcount64_two_pow_sub_one t ht

theorem eq_full_of_low_bits {b : Nat} (hb : b < 2 ^ 64)
    (h : ∀ i, i < 64 → b.testBit i = true) : b = bitBlockFull := by
  apply Nat.eq_of_testBit_eq
  intro i
  rw [bitBlockFull_testBit]
  by_cases hi : i < 64
  · simp [h i hi, hi]
  · rw [testBit_ge_64 hb (by omega)]
    simp [hi]

theorem lowestClear_lt_64 {b : Nat} (hb : b < 2 ^ 64) (hf : b ≠ bitBlockFull) :
    lowestClear b < 64 := by
  by_contra h
  exact hf (eq_full_of_low_bits hb fun i hi => lowestClear_lt b i (by omega))

theorem countBits_unfold (n : Nat) : countBits n = n % 2 + countBits (n / 2) := by
  by_cases h : n = 0
  · subst h
    rw [countBits]
    simp
  · rw [countBits, dif_neg h]

theorem countBits_eq_zero {n : Nat} : countBits n = 0 ↔ n = 0 := by
  constructor
  · induction n using Nat.strong_induction_on with
    | _ n ih =>
      intro h
      rw [countBits_unfold] at h
      by_cases hn : n = 0
      · exact hn
      · have h2 : n / 2 = 0 :=
          ih (n / 2) (Nat.div_lt_self (Nat.pos_of_ne_zero hn) (by omega)) (by omega)
        omega
  · intro h
    subst h
    rw [countBits]
    simp

theorem countBits_bit (r x : Nat) (hr : r < 2) :
    countBits (r + 2 * x) = r + countBits x := by
  rw [countBits_unfold]
  have h1 : (r + 2 * x) % 2 = r := by omega
  have h2 : (r + 2 * x) / 2 = x := by omega
  rw [h1, h2]

theorem lor_two_pow_succ (n j : Nat) :
    n ||| 2 ^ (j + 1) = n % 2 + 2 * (n / 2 ||| 2 ^ j) := by
  have hdiv2 : (n % 2 + 2 * (n / 2 ||| 2 ^ j)) / 2 = n / 2 ||| 2 ^ j := by omega
  have hmod2 : (n % 2 + 2 * (n / 2 ||| 2 ^ j)) % 2 = n % 2 := by omega
  have hp : 2 ^ (j + 1) / 2 = 2 ^ j := by
    rw [pow_succ]
    omega
  have hp0 : 2 ^ (j + 1) % 2 = 0 := by
    rw [pow_succ]
    omega
  apply Nat.eq_of_testBit_eq
  intro i
  cases i with
  | zero =>
    simp only [Nat.testBit_lor, Nat.testBit_zero, hmod2, hp0]
    simp
  | succ i =>
    rw [Nat.testBit_lor, Nat.testBit_succ, Nat.testBit_succ, hp,
      Nat.testBit_succ, hdiv2, Nat.testBit_lor]

theorem countBits_lor_two_pow :
    ∀ j n, n.testBit j = false → countBits (n ||| 2 ^ j) = countBits n + 1 := by
  intro j
  induction j with
  | zero =>
    intro n h
    rw [Nat.testBit_zero, decide_eq_false_iff_not] at h
    have hmod : n % 2 = 0 := by omega
    have h3 : (n + 1) % 2 = 1 := by omega
    have h4 : (n + 1) / 2 = n / 2 := by omega
    have hor : n ||| 1 = n + 1 := by
      apply Nat.eq_of_testBit_eq
      intro i
      cases i with
      | zero =>
        simp only [Nat.testBit_lor, Nat.testBit_zero, h3]
        simp [hmod]
      | succ i =>
        have h1 : (1 : Nat) / 2 = 0 := by norm_num
        rw [Nat.testBit_lor, Nat.testBit_succ, Nat.testBit_succ, h1,
          Nat.zero_testBit, Nat.testBit_succ, h4]
        simp
    rw [pow_zero, hor, countBits_unfold (n + 1), countBits_unfold n]
    rw [h3, h4, hmod]
    omega
  | succ j ih =>
    intro n h
    rw [lor_two_pow_succ, countBits_bit _ _ (by omega),
      ih (n / 2) (by rw [← Nat.testBit_succ]; exact h),
      countBits_unfold n]
    omega

theorem clear_lor {n j : Nat} (hj : j < 64) (hn : n < 2 ^ 64)
    (h : n.testBit j = true) :
    (n &&& (2 ^ j ^^^ bitBlockFull)) ||| 2 ^ j = n ∧
      (n &&& (2 ^ j ^^^ bitBlockFull)).testBit j = false := by
  have hxor : ∀ i, (2 ^ j ^^^ bitBlockFull).testBit i
      = (decide (i < 64) && !decide (j = i)) := by
    intro i
    rw [Nat.testBit_xor, Nat.testBit_two_pow, bitBlockFull_testBit]
    by_cases h1 : j = i <;> by_cases h2 : i < 64 <;>
      (simp [h1, h2]; try omega)
  constructor
  · apply Nat.eq_of_testBit_eq
    intro i
    rw [Nat.testBit_lor, Nat.testBit_land, hxor, Nat.testBit_two_pow]
    by_cases h1 : j = i
    · subst h1
      simp [h]
    · by_cases h2 : i < 64
      · simp [h1, h2]
      · rw [testBit_ge_64 hn (by omega)]
        simp [h1, h2]
  · rw [Nat.testBit_land, hxor]
    simp

theorem countBits_clear {n j : Nat} (hj : j < 64) (hn : n < 2 ^ 64)
    (h : n.testBit j = true) :
    countBits (n &&& (2 ^ j ^^^ bitBlockFull)) + 1 = countBits n := by
  obtain ⟨h1, h2⟩ := clear_lor hj hn h
  conv_rhs => rw [← h1]
  rw [countBits_lor_two_pow j _ h2]

theorem getD_set_self {l : List Nat} {i : Nat} (h : i < l.length) (a : Nat) :
    (l.set i a).getD i 0 = a := by
  rw [List.getD_eq_getElem?_getD, List.getElem?_set]
  simp [h]

theorem getD_set_ne {l : List Nat} {i k : Nat} (h : i ≠ k) (a : Nat) :
    (l.set i a).getD k 0 = l.getD k 0 := by
  rw [List.getD_eq_getElem?_getD, List.getElem?_set, if_neg h,
    ← List.getD_eq_getElem?_getD]

theorem value_testBit (b : Nat) {j : Nat} (hj : j < 64) :
    BitBlock.value b j = b.testBit j := by
  unfold BitBlock.value
  rw [mask_eq_pow hj, Nat.and_two_pow]
  cases h : b.testBit j
  · simp
  · simp [(Nat.two_pow_pos j).ne']

theorem and_mask_eq_zero (b : Nat) {j : Nat} (hj : j < 64) :
    (b &&& mask j = 0) ↔ b.testBit j = false := by
  rw [mask_eq_pow hj, Nat.and_two_pow]
  cases h : b.testBit j <;> simp [(Nat.two_pow_pos j).ne']

theorem mod_blockSize_lt (i : Nat) : i % blockSize < 64 :=
  Nat.mod_lt _ (by norm_num [blockSize])

theorem word_lt_size {s : BitArray} (h : WF s) {i : Nat} (hi : i < s.capacity) :
    i / blockSize < s.size := by
  have h1 := h.2.1
  have h2 : i / blockSize ≤ s.capacity / blockSize :=
    Nat.div_le_div_right (le_of_lt hi)
  omega

theorem Set_out_of_range {s : BitArray} {i : Nat}
    (h : s.size ≤ i / blockSize) (v : Bool) : Set s i v = (s, false) := by
  unfold Set bitIndexAndNum
  simp [Nat.not_lt.mpr h]

theorem Set_true_changed {s : BitArray} {i : Nat} (hw : i / blockSize < s.size)
    (hc : s.blocks.getD (i / blockSize) 0 &&& mask (i % blockSize) = 0) :
    Set s i true =
      ({ s with blocks := s.blocks.set (i / blockSize)
                  (s.blocks.getD (i / blockSize) 0 ||| mask (i % blockSize))
                count := s.count + 1 }, true) := by
  unfold Set bitIndexAndNum BitBlock.compareAndMark
  simp only [List.getD_eq_getElem?_getD] at hc
  simp [hw, hc]

theorem Set_true_nop {s : BitArray} {i : Nat} (hw : i / blockSize < s.size)
    (hc : s.blocks.getD (i / blockSize) 0 &&& mask (i % blockSize) ≠ 0) :
    Set s i true = (s, false) := by
  unfold Set bitIndexAndNum BitBlock.compareAndMark
  simp only [List.getD_eq_getElem?_getD] at hc
  simp [hw, hc]

theorem Set_false_changed {s : BitArray} {i : Nat} (hw : i / blockSize < s.size)
    (hc : s.blocks.getD (i / blockSize) 0 &&& mask (i % blockSize) ≠ 0) :
    Set s i false =
      ({ s with blocks := s.blocks.set (i / blockSize)
                  (s.blocks.getD (i / blockSize) 0 &&&
                    (mask (i % blockSize) ^^^ bitBlockFull))
                count := s.count - 1
                curIndex := if i / blockSize < s.curIndex then i / blockSize
                  else s.curIndex }, true) := by
  unfold Set bitIndexAndNum BitBlock.compareAndUnmark
  simp only [List.getD_eq_getElem?_getD] at hc
  simp [hw, hc]

theorem Set_false_nop {s : BitArray} {i : Nat} (hw : i / blockSize < s.size)
    (hc : s.blocks.getD (i / blockSize) 0 &&& mask (i % blockSize) = 0) :
    Set s i false = (s, false) := by
  unfold Set bitIndexAndNum BitBlock.compareAndUnmark
  simp only [List.getD_eq_getElem?_getD] at hc
  simp [hw, hc]

theorem Get_eq {s : BitArray} {i : Nat} (hw : i / blockSize < s.size) :
    Get s i = (s.blocks.getD (i / blockSize) 0).testBit (i % blockSize) := by
  unfold Get bitIndexAndNum
  simp [hw, value_testBit _ (mod_blockSize_lt i)]

theorem Get_out_of_range {s : BitArray} {i : Nat}
    (h : s.size ≤ i / blockSize) : Get s i = false := by
  unfold Get bitIndexAndNum
  simp [Nat.not_lt.mpr h]

theorem nextFreeGo_found {blocks : List Nat} {size cur fuel : Nat}
    (hr : BitBlock.hasRoom (blocks.getD cur 0) = true) (hf : 0 < fuel) :
    nextFreeGo blocks size cur fuel = (some cur, cur) := by
  cases fuel with
  | zero => omega
  | succ fuel =>
    simp only [List.getD_eq_getElem?_getD] at hr
    simp [nextFreeGo, hr]

theorem nextFreeGo_step {blocks : List Nat} {size cur fuel : Nat}
    (hr : BitBlock.hasRoom (blocks.getD cur 0) = false) :
    nextFreeGo blocks size cur (fuel + 1) =
      nextFreeGo blocks size ((cur + 1) % size) fuel := by
  simp only [List.getD_eq_getElem?_getD] at hr
  simp [nextFreeGo, hr]

theorem nextFreeGo_bound {blocks : List Nat} {size : Nat} (hs : 0 < size) :
    ∀ fuel cur, cur < size →
      (nextFreeGo blocks size cur fuel).2 < size ∧
        ∀ c, (nextFreeGo blocks size cur fuel).1 = some c →
          c = (nextFreeGo blocks size cur fuel).2 := by
  intro fuel
  induction fuel with
  | zero =>
    intro cur hc
    refine ⟨hc, ?_⟩
    intro c h
    simp [nextFreeGo] at h
  | succ fuel ih =>
    intro cur hc
    by_cases hr : BitBlock.hasRoom (blocks.getD cur 0)
    · rw [nextFreeGo_found hr (by omega)]
      exact ⟨hc, fun c h => by simpa using h.symm⟩
    · rw [nextFreeGo_step (by simpa using hr)]
      exact ih _ (Nat.mod_lt _ hs)

theorem MarkFree_noRoom {s : BitArray} (h : HasRoom s = false) :
    MarkFree s = (s, -1) := by
  unfold MarkFree
  simp [h, BitBlockNotFound]

theorem MarkFree_found {s : BitArray} {c r : Nat} (h : HasRoom s = true)
    (hfind : nextFreeGo s.blocks s.size s.curIndex s.size = (some c, r)) :
    MarkFree s =
      ({ s with blocks := s.blocks.set c
                  (BitBlock.mark (s.blocks.getD c 0)
                    (BitBlock.ffz (s.blocks.getD c 0)))
                curIndex := c
                count := s.count + 1 },
        ((c * blockSize + BitBlock.ffz (s.blocks.getD c 0) : Nat) : Int)) := by
  unfold MarkFree
  rw [h, hfind]
  simp

theorem MarkFree_none {s : BitArray} {r : Nat} (h : HasRoom s = true)
    (hfind : nextFreeGo s.blocks s.size s.curIndex s.size = (none, r)) :
    MarkFree s = ({ s with curIndex := r }, -1) := by
  unfold MarkFree
  rw [h, hfind]
  simp [BitBlockNotFound]

theorem Reset_eq {s : BitArray} (h : WF s) :
    Reset s = { s with blocks := List.replicate s.size 0, count := 0 } := by
  unfold Reset
  congr 1
  apply List.ext_getElem
  · simp [List.length_replicate, h.1]
  · intro n h1 h2
    rw [List.getElem_mapIdx, List.getElem_replicate]
    have : n < s.size := by
      have := h.1
      simp at h1
      omega
    simp [this]

theorem getD_replicate {n i : Nat} : (List.replicate n (0 : Nat)).getD i 0 = 0 := by
  rw [List.getD_eq_getElem?_getD, List.getElem?_replicate]
  by_cases h : i < n <;> simp [h]

theorem WF_NewBitArray (C : Nat) : WF (NewBitArray C) := by
  refine ⟨by simp [NewBitArray], rfl, by simp [NewBitArray], ?_⟩
  intro i
  show (List.replicate (C / blockSize + 1) 0).getD i 0 < 2 ^ 64
  rw [getD_replicate]
  norm_num

theorem WF_Set {s : BitArray} (h : WF s) (i : Nat) (v : Bool) :
    WF (Set s i v).1 := by
  by_cases hw : i / blockSize < s.size
  case neg =>
    rw [Set_out_of_range (by omega) v]
    exact h
  obtain ⟨h1, h2, h3, h4⟩ := h
  have hlen : i / blockSize < s.blocks.length := by omega
  cases v with
  | true =>
    by_cases hc : s.blocks.getD (i / blockSize) 0 &&& mask (i % blockSize) = 0
    · rw [Set_true_changed hw hc]
      refine ⟨by simp [h1], h2, h3, ?_⟩
      intro k
      by_cases hk : i / blockSize = k
      · subst hk
        show (s.blocks.set _ _).getD _ 0 < 2 ^ 64
        rw [getD_set_self hlen]
        exact Nat.or_lt_two_pow (h4 _) (mask_lt _)
      · show (s.blocks.set _ _).getD k 0 < 2 ^ 64
        rw [getD_set_ne hk]
        exact h4 k
    · rw [Set_true_nop hw hc]
      exact ⟨h1, h2, h3, h4⟩
  | false =>
    by_cases hc : s.blocks.getD (i / blockSize) 0 &&& mask (i % blockSize) = 0
    · rw [Set_false_nop hw hc]
      exact ⟨h1, h2, h3, h4⟩
    · rw [Set_false_changed hw hc]
      refine ⟨by simp [h1], h2, ?_, ?_⟩
      · show (if i / blockSize < s.curIndex then i / blockSize else s.curIndex) < s.size
        split <;> omega
      · intro k
        by_cases hk : i / blockSize = k
        · subst hk
          show (s.blocks.set _ _).getD _ 0 < 2 ^ 64
          rw [getD_set_self hlen]
          exact Nat.and_lt_two_pow _ (Nat.xor_lt_two_pow (mask_lt _) bitBlockFull_lt)
        · show (s.blocks.set _ _).getD k 0 < 2 ^ 64
          rw [getD_set_ne hk]
          exact h4 k

theorem WF_MarkFree {s : BitArray} (h : WF s) : WF (MarkFree s).1 := by
  obtain ⟨h1, h2, h3, h4⟩ := h
  have hs : 0 < s.size := by omega
  by_cases hr : HasRoom s
  · rcases hfind : nextFreeGo s.blocks s.size s.curIndex s.size with ⟨o, r⟩
    have hb := @nextFreeGo_bound s.blocks s.size hs s.size s.curIndex h3
    rw [hfind] at hb
    cases o with
    | none =>
      rw [MarkFree_none hr hfind]
      exact ⟨h1, h2, hb.1, h4⟩
    | some c =>
      have hc : c < s.size := by
        have := hb.2 c rfl
        omega
      rw [MarkFree_found hr hfind]
      refine ⟨by simp [h1], h2, hc, ?_⟩
      intro k
      by_cases hk : c = k
      · subst hk
        show (s.blocks.set _ _).getD _ 0 < 2 ^ 64
        rw [getD_set_self (by omega)]
        exact Nat.or_lt_two_pow (h4 _) (mask_lt _)
      · show (s.blocks.set _ _).getD k 0 < 2 ^ 64
        rw [getD_set_ne hk]
        exact h4 k
  · rw [MarkFree_noRoom (by simpa using hr)]
    exact ⟨h1, h2, h3, h4⟩

theorem WF_Reset {s : BitArray} (h : WF s) : WF (Reset s) := by
  rw [Reset_eq h]
  refine ⟨by simp [h.1], h.2.1, h.2.2.1, ?_⟩
  intro i
  show (List.replicate s.size 0).getD i 0 < 2 ^ 64
  rw [getD_replicate]
  norm_num

theorem WF_applyOp {s : BitArray} (h : WF s) (op : Op) : WF (applyOp s op) := by
  cases op with
  | set i v => exact WF_Set h i v
  | markFree => exact WF_MarkFree h
  | reset => exact WF_Reset h

theorem WF_run {s : BitArray} (h : WF s) (ops : List Op) : WF (run s ops) := by
  induction ops generalizing s with
  | nil => exact h
  | cons op ops ih =>
    show WF (run (applyOp s op) ops)
    exact ih (WF_applyOp h op)

theorem reachable_wf {s : BitArray} (h : Reachable s) : WF s := by
  obtain ⟨C, ops, rfl⟩ := h
  exact WF_run (WF_NewBitArray C) ops

theorem testBit_of_and_mask_ne {b j : Nat} (hj : j < 64)
    (hc : b &&& mask j ≠ 0) : b.testBit j = true := by
  rcases h : b.testBit j with _ | _
  · exact absurd ((and_mask_eq_zero b hj).mpr h) hc
  · rfl

theorem Set_fst_fields (s : BitArray) (i : Nat) (v : Bool) :
    (Set s i v).1.size = s.size ∧ (Set s i v).1.capacity = s.capacity := by
  by_cases hw : i / blockSize < s.size
  · cases v with
    | true =>
      by_cases hc : s.blocks.getD (i / blockSize) 0 &&& mask (i % blockSize) = 0
      · rw [Set_true_changed hw hc]
        exact ⟨rfl, rfl⟩
      · rw [Set_true_nop hw hc]
        exact ⟨rfl, rfl⟩
    | false =>
      by_cases hc : s.blocks.getD (i / blockSize) 0 &&& mask (i % blockSize) = 0
      · rw [Set_false_nop hw hc]
        exact ⟨rfl, rfl⟩
      · rw [Set_false_changed hw hc]
        exact ⟨rfl, rfl⟩
  · rw [Set_out_of_range (by omega) v]
    exact ⟨rfl, rfl⟩

/-- After `Set s i v`, reading index `i` gives `v` (for any in-range index,
spill bits included). -/
theorem get_set_self {s : BitArray} (h : WF s) {i : Nat}
    (hw : i / blockSize < s.size) (v : Bool) : Get (Set s i v).1 i = v := by
  have h4 := h.2.2.2
  have hlen : i / blockSize < s.blocks.length := by
    have := h.1
    omega
  have hj : i % blockSize < 64 := mod_blockSize_lt i
  have hw' : i / blockSize < (Set s i v).1.size := by
    rw [(Set_fst_fields s i v).1]
    exact hw
  rw [Get_eq hw']
  cases v with
  | true =>
    by_cases hc : s.blocks.getD (i / blockSize) 0 &&& mask (i % blockSize) = 0
    · rw [Set_true_changed hw hc]
      show ((s.blocks.set _ _).getD (i / blockSize) 0).testBit (i % blockSize) = true
      rw [getD_set_self hlen, mask_eq_pow hj, Nat.testBit_lor, Nat.testBit_two_pow]
      simp
    · rw [Set_true_nop hw hc]
      exact testBit_of_and_mask_ne hj hc
  | false =>
    by_cases hc : s.blocks.getD (i / blockSize) 0 &&& mask (i % blockSize) = 0
    · rw [Set_false_nop hw hc]
      exact (and_mask_eq_zero _ hj).mp hc
    · rw [Set_false_changed hw hc]
      show ((s.blocks.set _ _).getD (i / blockSize) 0).testBit (i % blockSize) = false
      rw [getD_set_self hlen, mask_eq_pow hj]
      exact (clear_lor hj (h4 _) (testBit_of_and_mask_ne hj hc)).2

/-- `Set`'s `changed` result is `true` exactly when the stored bit differed
from the requested value. -/
theorem set_changed_eq {s : BitArray} {i : Nat}
    (hw : i / blockSize < s.size) (v : Bool) :
    (Set s i v).2 = (Get s i != v) := by
  have hj : i % blockSize < 64 := mod_blockSize_lt i
  rw [Get_eq hw]
  cases v with
  | true =>
    by_cases hc : s.blocks.getD (i / blockSize) 0 &&& mask (i % blockSize) = 0
    · rw [Set_true_changed hw hc, (and_mask_eq_zero _ hj).mp hc]
      rfl
    · rw [Set_true_nop hw hc, testBit_of_and_mask_ne hj hc]
      rfl
  | false =>
    by_cases hc : s.blocks.getD (i / blockSize) 0 &&& mask (i % blockSize) = 0
    · rw [Set_false_nop hw hc, (and_mask_eq_zero _ hj).mp hc]
      rfl
    · rw [Set_false_changed hw hc, testBit_of_and_mask_ne hj hc]
      rfl

/-- **C2 (amended).** In every state, `HasRoom` is `false` exactly when
`Len ≥ Cap` (reachable states can drive `Len` past `Cap` through spill bits,
so equality is too strong), and `IsEmpty` is the negation of `HasRoom`. -/
theorem C2_hasRoom_iff_len_ge_cap (s : BitArray) :
    (HasRoom s = false ↔ Cap s ≤ Len s) ∧ IsEmpty s = !HasRoom s := by
  refine ⟨?_, rfl⟩
  unfold HasRoom Len Cap
  simp [Int.not_lt]

/-- **C2 (counterexample).** The claim as stated is false: on a capacity-1
bitmap, marking indices 0 and 1 (index 1 is a spill bit) yields a reachable
state with `HasRoom = false` but `Len = 2 ≠ 1 = Cap`. -/
theorem C2_counterexample :
    ¬ ∀ s : BitArray, Reachable s → (HasRoom s = false ↔ Len s = Cap s) := by
  intro hclaim
  have h := hclaim (run (NewBitArray 1) [Op.set 0 true, Op.set 1 true])
    ⟨1, [Op.set 0 true, Op.set 1 true], rfl⟩
  revert h
  decide

/-- **C4.** For an index below the capacity, `Set i v` reports `changed`
exactly when the prior bit value differed from `v`; repeating the same `Set`
reports `changed = false` (idempotence). -/
theorem C4_set_changed (s : BitArray) (i : Nat) (v : Bool) (h : WF s)
    (hi : i < s.capacity) :
    (Set s i v).2 = (Get s i != v) ∧ (Set (Set s i v).1 i v).2 = false := by
  have hw := word_lt_size h hi
  refine ⟨set_changed_eq hw v, ?_⟩
  have hw' : i / blockSize < (Set s i v).1.size := by
    rw [(Set_fst_fields s i v).1]
    exact hw
  rw [set_changed_eq hw' v, get_set_self h hw v]
  simp

/-- **C4 witness.** Concrete instance at capacity 10, index 3. -/
theorem C4_witness :
    (3 : Nat) < (NewBitArray 10).capacity ∧
      ((Set (NewBitArray 10) 3 true).2 = (Get (NewBitArray 10) 3 != true) ∧
        (Set (Set (NewBitArray 10) 3 true).1 3 true).2 = false) :=
  ⟨by decide, C4_set_changed (NewBitArray 10) 3 true (WF_NewBitArray 10) (by decide)⟩

/-- **C5.** For an index below the capacity: after `Mark i`, `Get i` is
`true`; after `Unmark i`, `Get i` is `false`. -/
theorem C5_mark_unmark_get (s : BitArray) (i : Nat) (h : WF s)
    (hi : i < s.capacity) :
    Get (Mark s i) i = true ∧ Get (Unmark s i) i = false := by
  have hw := word_lt_size h hi
  unfold Mark Unmark
  exact ⟨get_set_self h hw true, get_set_self h hw false⟩

/-- **C5 witness.** Concrete instance at capacity 10, index 7. -/
theorem C5_witness :
    (7 : Nat) < (NewBitArray 10).capacity ∧
      (Get (Mark (NewBitArray 10) 7) 7 = true ∧
        Get (Unmark (NewBitArray 10) 7) 7 = false) :=
  ⟨by decide, C5_mark_unmark_get (NewBitArray 10) 7 (WF_NewBitArray 10) (by decide)⟩

/-- **C8 (amended).** After `Reset`: `Len` is 0 and `Cap` is unchanged, in any
state; `HasRoom` is `true` whenever the capacity is positive (a capacity-0
bitmap reports no room even when freshly reset). -/
theorem C8_reset (s : BitArray) :
    Len (Reset s) = 0 ∧ Cap (Reset s) = Cap s ∧
      (0 < s.capacity → HasRoom (Reset s) = true) := by
  refine ⟨rfl, rfl, ?_⟩
  intro hc
  unfold HasRoom Reset
  simp
  omega

/-- **C8 (counterexample).** The claim as stated is false: the reachable
capacity-0 bitmap has `HasRoom = false` after `Reset`. -/
theorem C8_counterexample :
    ¬ ∀ s : BitArray, Reachable s → HasRoom (Reset s) = true := by
  intro hclaim
  have h := hclaim (NewBitArray 0) ⟨0, [], rfl⟩
  revert h
  decide

/-- **C8 witness.** Concrete instance: `Reset` after filling a capacity-10
bitmap. -/
theorem C8_witness :
    0 < (run (NewBitArray 10) [Op.set 0 true, Op.markFree]).capacity ∧
      (Len (Reset (run (NewBitArray 10) [Op.set 0 true, Op.markFree])) = 0 ∧
        Cap (Reset (run (NewBitArray 10) [Op.set 0 true, Op.markFree])) =
          Cap (run (NewBitArray 10) [Op.set 0 true, Op.markFree]) ∧
        HasRoom (Reset (run (NewBitArray 10) [Op.set 0 true, Op.markFree])) = true) := by
  constructor
  · decide
  · obtain ⟨ha, hb, hc⟩ := C8_reset (run (NewBitArray 10) [Op.set 0 true, Op.markFree])
    exact ⟨ha, hb, hc (by decide)⟩

/-- **C9.** For an index whose mapped word lies outside the allocated range,
`Get` returns `false` and `Set` returns the state unchanged with
`changed = false` (silent out-of-range policy; indices are the interface's
whole-number domain). -/
theorem C9_out_of_range (s : BitArray) (i : Nat) (v : Bool)
    (h : s.size ≤ i / blockSize) :
    Get s i = false ∧ Set s i v = (s, false) :=
  ⟨Get_out_of_range h, Set_out_of_range h v⟩

/-- **C9 witness.** Capacity 10 allocates one word; index 64 maps to word 1. -/
theorem C9_witness :
    (NewBitArray 10).size ≤ 64 / blockSize ∧
      (Get (NewBitArray 10) 64 = false ∧
        Set (NewBitArray 10) 64 true = (NewBitArray 10, false)) :=
  ⟨by decide, C9_out_of_range (NewBitArray 10) 64 true (by decide)⟩

/-- **C7 (amended).** If the word holding slot `idx` is full and lies
strictly before the scan cursor, then freeing the slot reports
`changed = true` and pulls the cursor back to that word; and — provided the
occupied count does not exceed the capacity (reachable spill-overfilled
states violate this, see the counterexample) — the next `MarkFree` returns
`idx` itself (hence no index beyond the old scan position). -/
theorem C7_cursor_rewind (s : BitArray) (idx : Nat) (h : WF s)
    (hfull : s.blocks.getD (idx / blockSize) 0 = bitBlockFull)
    (hcur : idx / blockSize < s.curIndex)
    (hcnt : s.count ≤ (s.capacity : Int)) :
    (Set s idx false).2 = true ∧
      (Set s idx false).1.curIndex = idx / blockSize ∧
      (MarkFree (Set s idx false).1).2 = (idx : Int) := by
  obtain ⟨h1, h2, h3, h4⟩ := h
  have hj : idx % blockSize < 64 := mod_blockSize_lt idx
  have hw : idx / blockSize < s.size := by omega
  have hlen : idx / blockSize < s.blocks.length := by omega
  have htb : (s.blocks.getD (idx / blockSize) 0).testBit (idx % blockSize) = true := by
    rw [hfull, bitBlockFull_testBit]
    simp [hj]
  have hc : s.blocks.getD (idx / blockSize) 0 &&& mask (idx % blockSize) ≠ 0 := by
    intro h0
    rw [(and_mask_eq_zero _ hj).mp h0] at htb
    exact Bool.false_ne_true htb
  have hset := Set_false_changed hw hc
  have hnew : ∀ i', i' < 64 →
      ((bitBlockFull &&& (mask (idx % blockSize) ^^^ bitBlockFull)).testBit i')
        = !decide (idx % blockSize = i') := by
    intro i' hi'
    rw [mask_eq_pow hj, Nat.testBit_land, Nat.testBit_xor, Nat.testBit_two_pow,
      bitBlockFull_testBit]
    rcases h5 : decide (idx % blockSize = i') with _ | _ <;> simp [hi', h5]
  have hnew_lt : bitBlockFull &&& (mask (idx % blockSize) ^^^ bitBlockFull) < 2 ^ 64 :=
    Nat.and_lt_two_pow _ (Nat.xor_lt_two_pow (mask_lt _) bitBlockFull_lt)
  have hnotfull : bitBlockFull &&& (mask (idx % blockSize) ^^^ bitBlockFull)
      ≠ bitBlockFull := by
    intro h0
    have := hnew (idx % blockSize) hj
    rw [h0, bitBlockFull_testBit] at this
    simp [hj] at this
  refine ⟨by rw [hset], by rw [hset]; exact if_pos hcur, ?_⟩
  rw [hset]
  set t : BitArray :=
    { s with blocks := s.blocks.set (idx / blockSize)
               (s.blocks.getD (idx / blockSize) 0 &&&
                 (mask (idx % blockSize) ^^^ bitBlockFull))
             count := s.count - 1
             curIndex := if idx / blockSize < s.curIndex then idx / blockSize
               else s.curIndex } with ht
  have htcur : t.curIndex = idx / blockSize := if_pos hcur
  have htblk : t.blocks.getD t.curIndex 0
      = bitBlockFull &&& (mask (idx % blockSize) ^^^ bitBlockFull) := by
    rw [htcur]
    show (s.blocks.set _ _).getD _ 0 = _
    rw [getD_set_self hlen, hfull]
  have hroom : HasRoom t = true := by
    show decide (s.count - 1 < (s.capacity : Int)) = true
    simp
    omega
  have hfind : nextFreeGo t.blocks t.size t.curIndex t.size
      = (some t.curIndex, t.curIndex) := by
    apply nextFreeGo_found
    · rw [htblk]
      show (bitBlockFull &&& (mask (idx % blockSize) ^^^ bitBlockFull)
        != bitBlockFull) = true
      simp [hnotfull]
    · show 0 < s.size
      omega
  rw [MarkFree_found hroom hfind, htblk]
  have hffz : BitBlock.ffz (bitBlockFull &&& (mask (idx % blockSize) ^^^ bitBlockFull))
      = idx % blockSize := by
    apply ffz_eq _ _ hnew_lt hj
    · intro i' hi'
      rw [hnew i' (by omega)]
      simp
      omega
    · rw [hnew _ hj]
      simp
  rw [hffz, htcur]
  show (((idx / blockSize) * blockSize + idx % blockSize : Nat) : Int) = (idx : Int)
  congr 1
  rw [Nat.mul_comm]
  exact Nat.div_add_mod idx blockSize

/-- **C7 witness.** Capacity 65, word 0 full, cursor at word 1, `idx = 3`. -/
theorem C7_witness :
    WF (⟨[bitBlockFull, 0], 1, 2, 65, 65⟩ : BitArray) ∧
      ((Set (⟨[bitBlockFull, 0], 1, 2, 65, 65⟩ : BitArray) 3 false).2 = true ∧
        (Set (⟨[bitBlockFull, 0], 1, 2, 65, 65⟩ : BitArray) 3 false).1.curIndex
          = 3 / blockSize ∧
        (MarkFree (Set (⟨[bitBlockFull, 0], 1, 2, 65, 65⟩ : BitArray) 3 false).1).2
          = (3 : Int)) := by
  have hwf : WF (⟨[bitBlockFull, 0], 1, 2, 65, 65⟩ : BitArray) := by
    refine ⟨rfl, rfl, by norm_num, ?_⟩
    intro i
    rcases i with _ | _ | i
    · show bitBlockFull < 2 ^ 64
      exact bitBlockFull_lt
    · show (0 : Nat) < 2 ^ 64
      norm_num
    · show ([] : List Nat).getD i 0 < 2 ^ 64
      simp [List.getD]
  exact ⟨hwf, C7_cursor_rewind _ 3 hwf (by decide) (by decide) (by decide)⟩

/-- **C7 (counterexample).** The claim as stated is false on reachable
states: on a capacity-65 bitmap, 65 `MarkFree` calls fill word 0 and slot 64
(cursor on word 1, count 65), and marking spill bit 66 raises the count to
66.  Word 0 is full and lies before the cursor, and `Set 3 false` frees
slot 3 and rewinds the cursor — but the next `MarkFree` fails its `HasRoom`
check (the count, 65, is not below the capacity) and returns `-1`, not 3. -/
theorem C7_counterexample :
    ¬ ∀ s : BitArray, Reachable s → ∀ idx : Nat,
      s.blocks.getD (idx / blockSize) 0 = bitBlockFull →
      idx / blockSize < s.curIndex →
      (MarkFree (Set s idx false).1).2 = (idx : Int) := by
  intro hclaim
  have h := hclaim
    (run (NewBitArray 65) (List.replicate 65 Op.markFree ++ [Op.set 66 true]))
    ⟨65, List.replicate 65 Op.markFree ++ [Op.set 66 true], rfl⟩
    3 (by decide) (by decide)
  revert h
  decide

/-- **C10.** `Reset` zeroes every word and the counter but leaves the scan
cursor unchanged; with the cursor on word `w > 0`, the first `MarkFree`
after `Reset` returns `w * 64`, not 0, although every slot is free. -/
theorem C10_reset_keeps_cursor (s : BitArray) (h : WF s)
    (hcur : 0 < s.curIndex) (hcap : 0 < s.capacity) :
    (Reset s).curIndex = s.curIndex ∧
      (Reset s).blocks = List.replicate s.size 0 ∧
      (Reset s).count = 0 ∧
      (MarkFree (Reset s)).2 = ((s.curIndex * blockSize : Nat) : Int) ∧
      (MarkFree (Reset s)).2 ≠ 0 := by
  have hres := Reset_eq h
  have hsize : 0 < s.size := by
    have h21 := h.2.1
    simp only [blockSize] at h21
    omega
  have hblk : (Reset s).blocks.getD (Reset s).curIndex 0 = 0 := by
    rw [hres]
    exact getD_replicate
  have hroom : HasRoom (Reset s) = true := by
    show decide ((0 : Int) < (s.capacity : Int)) = true
    simp
    omega
  have hfind : nextFreeGo (Reset s).blocks (Reset s).size (Reset s).curIndex
      (Reset s).size = (some (Reset s).curIndex, (Reset s).curIndex) := by
    apply nextFreeGo_found
    · rw [hblk]
      decide
    · show 0 < s.size
      exact hsize
  have hffz : BitBlock.ffz 0 = 0 := by decide
  have hval : (MarkFree (Reset s)).2 = ((s.curIndex * blockSize : Nat) : Int) := by
    rw [MarkFree_found hroom hfind, hblk, hffz]
    show ((s.curIndex * blockSize + 0 : Nat) : Int) = _
    norm_num
  refine ⟨rfl, by rw [hres], rfl, hval, ?_⟩
  rw [hval]
  show ¬ ((s.curIndex * blockSize : Nat) : Int) = 0
  simp only [blockSize]
  push_cast
  omega

/-- **C10 witness.** A reachable capacity-129 state whose cursor sits on
word 2: the first `MarkFree` after `Reset` returns 128, not 0. -/
theorem C10_witness :
    0 < (run (NewBitArray 129)
        ((List.range 128).map (fun i => Op.set i true) ++ [Op.markFree])).curIndex ∧
      (MarkFree (Reset (run (NewBitArray 129)
        ((List.range 128).map (fun i => Op.set i true) ++ [Op.markFree])))).2 = 128 := by
  have hwf : WF (run (NewBitArray 129)
      ((List.range 128).map (fun i => Op.set i true) ++ [Op.markFree])) :=
    reachable_wf ⟨129, _, rfl⟩
  have h := C10_reset_keeps_cursor _ hwf (by decide) (by decide)
  refine ⟨by decide, ?_⟩
  rw [h.2.2.2.1]
  decide

/-- **C6.** For a non-full 64-bit word, `ffz` — the SWAR population count of
`b & (~b - 1)` — returns the position, in 0–63, of the lowest-order clear bit. -/
theorem C6_ffz_lowest_clear (b : Nat) (hb : b < 2 ^ 64) (hf : b ≠ bitBlockFull) :
    BitBlock.ffz b = lowestClear b ∧ lowestClear b < 64 := by
  have ht := lowestClear_lt_64 hb hf
  exact ⟨ffz_eq b _ hb ht (lowestClear_lt b) (lowestClear_self b), ht⟩

/-- **C6 witness.** `b = 7` has bits 0–2 set, so its first clear bit is 3. -/
theorem C6_witness :
    (7 : Nat) < 2 ^ 64 ∧ (7 : Nat) ≠ bitBlockFull ∧
      BitBlock.ffz 7 = lowestClear 7 ∧ lowestClear 7 < 64 ∧ BitBlock.ffz 7 = 3 := by
  have h := C6_ffz_lowest_clear 7 (by norm_num) (by decide)
  exact ⟨by norm_num, by decide, h.1, h.2, by decide⟩

theorem ffz_two_pow_sub_one : ∀ r, r < 64 → BitBlock.ffz (2 ^ r - 1) = r := by
  decide

theorem two_pow_sub_one_lor {r : Nat} (hr : r < 64) :
    (2 ^ r - 1) ||| mask r = 2 ^ (r + 1) - 1 := by
  rw [mask_eq_pow hr]
  apply Nat.eq_of_testBit_eq
  intro i
  rw [Nat.testBit_lor, Nat.testBit_two_pow_sub_one, Nat.testBit_two_pow,
    Nat.testBit_two_pow_sub_one]
  rcases Nat.lt_trichotomy i r with h | h | h
  · have h4 : i < r + 1 := by omega
    simp [h, h4]
  · subst h
    simp
  · have h1 : ¬ i < r := by omega
    have h2 : ¬ r = i := by omega
    have h3 : ¬ i < r + 1 := by omega
    simp [h1, h2, h3]

theorem canonBlock_full {k i : Nat} (h : blockSize * (i + 1) ≤ k) :
    canonBlock k i = bitBlockFull := by
  unfold canonBlock bitBlockFull
  rw [Nat.min_eq_left (by simp only [blockSize] at h ⊢; omega)]

theorem canonBlock_partial {k i : Nat} (h1 : blockSize * i ≤ k)
    (h2 : k < blockSize * (i + 1)) :
    canonBlock k i = 2 ^ (k - blockSize * i) - 1 := by
  unfold canonBlock
  rw [Nat.min_eq_right (by simp only [blockSize] at h1 h2 ⊢; omega)]

theorem canonBlock_zero {k i : Nat} (h : k ≤ blockSize * i) : canonBlock k i = 0 := by
  unfold canonBlock
  have h0 : k - blockSize * i = 0 := by omega
  rw [h0]
  simp

theorem canonState_zero (C : Nat) : canonState C 0 = NewBitArray C := by
  unfold canonState NewBitArray
  congr 1
  apply List.ext_getElem
  · simp
  · intro n h1 h2
    simp only [List.getElem_map, List.getElem_range, List.getElem_replicate]
    exact canonBlock_zero (by omega)

theorem canonState_getD (C k : Nat) {i : Nat} (hi : i < C / blockSize + 1) :
    (canonState C k).blocks.getD i 0 = canonBlock k i := by
  show ((List.range (C / blockSize + 1)).map (canonBlock k)).getD i 0 = _
  rw [List.getD_eq_getElem?_getD, List.getElem?_map, List.getElem?_range hi]
  rfl

theorem canonBlock_succ (k i : Nat) :
    canonBlock (k + 1) i =
      if i = k / blockSize then 2 ^ (k % blockSize + 1) - 1 else canonBlock k i := by
  by_cases h : i = k / blockSize
  · subst h
    rw [if_pos rfl]
    unfold canonBlock
    have h3 : k + 1 - blockSize * (k / blockSize) = k % blockSize + 1 := by
      simp only [blockSize]
      omega
    rw [h3, Nat.min_eq_right (by simp only [blockSize]; omega)]
  · rw [if_neg h]
    unfold canonBlock
    rcases Nat.lt_or_ge i (k / blockSize) with hlt | hge
    · have e1 : min 64 (k + 1 - blockSize * i) = 64 :=
        Nat.min_eq_left (by simp only [blockSize] at hlt ⊢; omega)
      have e2 : min 64 (k - blockSize * i) = 64 :=
        Nat.min_eq_left (by simp only [blockSize] at hlt ⊢; omega)
      rw [e1, e2]
    · have hgt : k / blockSize < i := by omega
      have e1 : k + 1 - blockSize * i = 0 := by
        simp only [blockSize] at hgt ⊢
        omega
      have e2 : k - blockSize * i = 0 := by
        simp only [blockSize] at hgt ⊢
        omega
      rw [e1, e2]

theorem canon_blocks_set (C k : Nat) :
    ((List.range (C / blockSize + 1)).map (canonBlock k)).set (k / blockSize)
        (2 ^ (k % blockSize + 1) - 1)
      = (List.range (C / blockSize + 1)).map (canonBlock (k + 1)) := by
  apply List.ext_getElem
  · simp
  · intro n h1 h2
    rw [List.getElem_set]
    simp only [List.getElem_map, List.getElem_range]
    rw [canonBlock_succ]
    by_cases h : k / blockSize = n
    · rw [if_pos h, if_pos h.symm]
    · rw [if_neg h, if_neg fun hh => h hh.symm]

theorem markFree_canon (C k : Nat) (hk : k < C) :
    MarkFree (canonState C k) = (canonState C (k + 1), (k : Int)) := by
  have hq0 : k / blockSize ≤ C / blockSize := Nat.div_le_div_right (le_of_lt hk)
  have hq : k / blockSize < C / blockSize + 1 := by omega
  have hr : k % blockSize < 64 := mod_blockSize_lt k
  have hroom : HasRoom (canonState C k) = true := by
    show decide ((k : Int) < (C : Int)) = true
    simp
    omega
  have hgq : (canonState C k).blocks.getD (k / blockSize) 0
      = 2 ^ (k % blockSize) - 1 := by
    have hexp : k - blockSize * (k / blockSize) = k % blockSize := by
      simp only [blockSize]
      omega
    rw [canonState_getD C k hq,
      canonBlock_partial (by simp only [blockSize]; omega)
        (by simp only [blockSize]; omega), hexp]
  have hnotfull : BitBlock.hasRoom (2 ^ (k % blockSize) - 1) = true := by
    show (2 ^ (k % blockSize) - 1 != bitBlockFull) = true
    have hlt : 2 ^ (k % blockSize) < 2 ^ 64 := Nat.pow_lt_pow_right one_lt_two hr
    have : 2 ^ (k % blockSize) - 1 ≠ bitBlockFull := by
      unfold bitBlockFull
      have h1 : 1 ≤ 2 ^ (k % blockSize) := Nat.one_le_two_pow
      omega
    simp [this]
  have hfind : nextFreeGo (canonState C k).blocks (canonState C k).size
      (canonState C k).curIndex (canonState C k).size
      = (some (k / blockSize), k / blockSize) := by
    show nextFreeGo (canonState C k).blocks (C / blockSize + 1)
      ((k - 1) / blockSize) (C / blockSize + 1) = _
    by_cases hcase : k % blockSize = 0 ∧ k ≠ 0
    · have hq1 : 1 ≤ k / blockSize := by
        simp only [blockSize] at hcase ⊢
        omega
      have hcur : (k - 1) / blockSize = k / blockSize - 1 := by
        simp only [blockSize] at hcase ⊢
        omega
      have hfull : (canonState C k).blocks.getD (k / blockSize - 1) 0
          = bitBlockFull := by
        rw [canonState_getD C k (by omega)]
        exact canonBlock_full (by simp only [blockSize] at hcase ⊢; omega)
      rw [hcur, nextFreeGo_step (by rw [hfull]; decide)]
      have harg : (k / blockSize - 1 + 1) % (C / blockSize + 1) = k / blockSize := by
        rw [show k / blockSize - 1 + 1 = k / blockSize by omega]
        exact Nat.mod_eq_of_lt hq
      rw [harg]
      apply nextFreeGo_found
      · rw [hgq]
        exact hnotfull
      · exact Nat.lt_of_lt_of_le hq1 hq0
    · have hcur : (k - 1) / blockSize = k / blockSize := by
        simp only [blockSize] at hcase ⊢
        omega
      rw [hcur]
      apply nextFreeGo_found
      · rw [hgq]
        exact hnotfull
      · exact Nat.succ_pos _
  rw [MarkFree_found hroom hfind, hgq, ffz_two_pow_sub_one _ hr]
  unfold BitBlock.mark
  rw [two_pow_sub_one_lor hr]
  rw [Prod.mk.injEq]
  constructor
  · show ({ canonState C k with
      blocks := (canonState C k).blocks.set (k / blockSize) (2 ^ (k % blockSize + 1) - 1)
      curIndex := k / blockSize
      count := (canonState C k).count + 1 } : BitArray) = canonState C (k + 1)
    unfold canonState
    rw [BitArray.mk.injEq]
    refine ⟨?_, ?_, rfl, rfl, ?_⟩
    · show ((List.range (C / blockSize + 1)).map (canonBlock k)).set (k / blockSize)
          (2 ^ (k % blockSize + 1) - 1)
        = (List.range (C / blockSize + 1)).map (canonBlock (k + 1))
      exact canon_blocks_set C k
    · show k / blockSize = (k + 1 - 1) / blockSize
      norm_num
    · show (k : Int) + 1 = ((k + 1 : Nat) : Int)
      push_cast
      rfl
  · show ((k / blockSize * blockSize + k % blockSize : Nat) : Int) = (k : Int)
    congr 1
    rw [Nat.mul_comm]
    exact Nat.div_add_mod k blockSize

theorem markFreeN_succ_right : ∀ (n : Nat) (b : BitArray),
    markFreeN b (n + 1) =
      ((MarkFree (markFreeN b n).1).1,
        (markFreeN b n).2 ++ [(MarkFree (markFreeN b n).1).2]) := by
  intro n
  induction n with
  | zero =>
    intro b
    rfl
  | succ n ih =>
    intro b
    show ((markFreeN (MarkFree b).1 (n + 1)).1,
        (MarkFree b).2 :: (markFreeN (MarkFree b).1 (n + 1)).2) = _
    rw [ih (MarkFree b).1]
    show _ = ((MarkFree ((markFreeN (MarkFree b).1 n).1,
        (MarkFree b).2 :: (markFreeN (MarkFree b).1 n).2).1).1,
      ((MarkFree b).2 :: (markFreeN (MarkFree b).1 n).2) ++
        [(MarkFree ((markFreeN (MarkFree b).1 n).1,
          (MarkFree b).2 :: (markFreeN (MarkFree b).1 n).2).1).2])
    simp

theorem markFreeN_canon (C : Nat) : ∀ k, k ≤ C →
    markFreeN (NewBitArray C) k
      = (canonState C k, (List.range k).map Int.ofNat) := by
  intro k
  induction k with
  | zero =>
    intro _
    rw [canonState_zero]
    rfl
  | succ k ih =>
    intro hk
    rw [markFreeN_succ_right, ih (by omega)]
    show ((MarkFree (canonState C k)).1,
        (List.range k).map Int.ofNat ++ [(MarkFree (canonState C k)).2]) = _
    rw [markFree_canon C k (by omega)]
    show (canonState C (k + 1),
        (List.range k).map Int.ofNat ++ [((k : Nat) : Int)]) = _
    rw [List.range_succ, List.map_append]
    rfl

/-- **C1.** Starting from a fresh capacity-`C` bitmap, the `C` `MarkFree`
calls return exactly `0, 1, ..., C-1` in increasing order (hence pairwise
distinct and in `[0, C)`), the `(k+1)`-th call returns `k`, `HasRoom` is
`true` after `k` calls exactly while `k < C`, and the `(C+1)`-th call
returns the `NotFound` sentinel `-1`. -/
theorem C1_markFree_exhausts (C : Nat) :
    (markFreeN (NewBitArray C) C).2 = (List.range C).map Int.ofNat ∧
      List.Pairwise (fun a b => a ≠ b) (markFreeN (NewBitArray C) C).2 ∧
      (∀ x ∈ (markFreeN (NewBitArray C) C).2, 0 ≤ x ∧ x < (C : Int)) ∧
      (MarkFree (markFreeN (NewBitArray C) C).1).2 = BitBlockNotFound ∧
      (∀ k, k < C → (MarkFree (markFreeN (NewBitArray C) k).1).2 = (k : Int)) ∧
      (∀ k, k ≤ C → (HasRoom (markFreeN (NewBitArray C) k).1 = true ↔ k < C)) := by
  have hstate : ∀ k, k ≤ C → (markFreeN (NewBitArray C) k).1 = canonState C k := by
    intro k hk
    rw [markFreeN_canon C k hk]
  have hres : (markFreeN (NewBitArray C) C).2
      = (List.range C).map Int.ofNat := by
    rw [markFreeN_canon C C le_rfl]
  refine ⟨hres, ?_, ?_, ?_, ?_, ?_⟩
  · rw [hres]
    refine List.Pairwise.map _ ?_ (List.pairwise_lt_range C)
    intro a b hab
    exact fun h => Nat.ne_of_lt hab (Int.ofNat.inj h)
  · rw [hres]
    intro x hx
    simp only [List.mem_map, List.mem_range] at hx
    obtain ⟨n, hn, rfl⟩ := hx
    exact ⟨Int.ofNat_nonneg n, Int.ofNat_lt.mpr hn⟩
  · rw [hstate C le_rfl,
      MarkFree_noRoom (by show decide ((C : Int) < (C : Int)) = false; simp)]
    rfl
  · intro k hk
    rw [hstate k (by omega), markFree_canon C k hk]
  · intro k hk
    rw [hstate k hk]
    show (decide ((k : Int) < (C : Int)) = true) ↔ k < C
    simp

/-- **C1 witness.** The spec's capacity-10 example: returns `0..9` in order,
`HasRoom` up to the ninth call, `NotFound` on the eleventh. -/
theorem C1_witness :
    (markFreeN (NewBitArray 10) 10).2 = [0, 1, 2, 3, 4, 5, 6, 7, 8, 9] ∧
      (MarkFree (markFreeN (NewBitArray 10) 10).1).2 = BitBlockNotFound ∧
      HasRoom (markFreeN (NewBitArray 10) 9).1 = true ∧
      HasRoom (markFreeN (NewBitArray 10) 10).1 = false := by
  obtain ⟨h1, h2, h3, h4, h5, h6⟩ := C1_markFree_exhausts 10
  refine ⟨?_, h4, (h6 9 (by omega)).mpr (by omega), ?_⟩
  · rw [h1]
    decide
  · rcases hh : HasRoom (markFreeN (NewBitArray 10) 10).1
    · rfl
    · exact absurd ((h6 10 le_rfl).mp hh) (by omega)

theorem Inv1_NewBitArray : Inv1 (NewBitArray 1) := by
  refine ⟨rfl, rfl, rfl, 0, rfl, by norm_num, ?_⟩
  rw [countBits_eq_zero.mpr rfl]
  rfl

theorem inv1_wf {s : BitArray} (h : Inv1 s) : WF s := by
  obtain ⟨hcap, hsize, hcur, blk, hblocks, hblk, hcount⟩ := h
  refine ⟨by rw [hblocks, hsize]; rfl, by rw [hsize, hcap]; decide, by omega, ?_⟩
  intro i
  rw [hblocks]
  cases i with
  | zero => exact hblk
  | succ i =>
    show ([] : List Nat).getD i 0 < 2 ^ 64
    simp [List.getD]

theorem Inv1_Set {s : BitArray} (h : Inv1 s) (i : Nat) (v : Bool) :
    Inv1 (Set s i v).1 := by
  obtain ⟨hcap, hsize, hcur, blk, hblocks, hblk, hcount⟩ := h
  by_cases hw : i / blockSize < s.size
  · have hj : i % blockSize < 64 := mod_blockSize_lt i
    have hw0 : i / blockSize = 0 := by
      exact Nat.lt_one_iff.mp (Nat.lt_of_lt_of_le hw (Nat.le_of_eq hsize))
    have hget : s.blocks.getD (i / blockSize) 0 = blk := by
      rw [hw0, hblocks]
      rfl
    cases v with
    | true =>
      by_cases hc : s.blocks.getD (i / blockSize) 0 &&& mask (i % blockSize) = 0
      · rw [Set_true_changed hw hc]
        refine ⟨hcap, hsize, hcur, blk ||| mask (i % blockSize), ?_, ?_, ?_⟩
        · show s.blocks.set (i / blockSize)
            (s.blocks.getD (i / blockSize) 0 ||| mask (i % blockSize)) = _
          rw [hget, hw0, hblocks]
          rfl
        · exact Nat.or_lt_two_pow hblk (mask_lt _)
        · show s.count + 1 = _
          rw [hget] at hc
          have hcb : countBits (blk ||| mask (i % blockSize)) = countBits blk + 1 := by
            rw [mask_eq_pow hj]
            exact countBits_lor_two_pow _ _ ((and_mask_eq_zero blk hj).mp hc)
          rw [hcount, hcb]
          push_cast
          ring
      · rw [Set_true_nop hw hc]
        exact ⟨hcap, hsize, hcur, blk, hblocks, hblk, hcount⟩
    | false =>
      by_cases hc : s.blocks.getD (i / blockSize) 0 &&& mask (i % blockSize) = 0
      · rw [Set_false_nop hw hc]
        exact ⟨hcap, hsize, hcur, blk, hblocks, hblk, hcount⟩
      · rw [Set_false_changed hw hc]
        refine ⟨hcap, hsize, ?_,
          blk &&& (mask (i % blockSize) ^^^ bitBlockFull), ?_, ?_, ?_⟩
        · show (if i / blockSize < s.curIndex then i / blockSize else s.curIndex) = 0
          rw [hcur, hw0]
          simp
        · show s.blocks.set (i / blockSize)
            (s.blocks.getD (i / blockSize) 0 &&&
              (mask (i % blockSize) ^^^ bitBlockFull)) = _
          rw [hget, hw0, hblocks]
          rfl
        · exact Nat.and_lt_two_pow _ (Nat.xor_lt_two_pow (mask_lt _) bitBlockFull_lt)
        · show s.count - 1 = _
          rw [hget] at hc
          have htb : blk.testBit (i % blockSize) = true :=
            testBit_of_and_mask_ne hj hc
          have hcb := countBits_clear hj hblk htb
          rw [mask_eq_pow hj, hcount]
          omega
  · rw [Set_out_of_range (by omega) v]
    exact ⟨hcap, hsize, hcur, blk, hblocks, hblk, hcount⟩

theorem Inv1_MarkFree {s : BitArray} (h : Inv1 s) : Inv1 (MarkFree s).1 := by
  obtain ⟨hcap, hsize, hcur, blk, hblocks, hblk, hcount⟩ := h
  by_cases hroom : HasRoom s
  · have hcnt : s.count < 1 := by
      have hd : decide (s.count < (s.capacity : Int)) = true := hroom
      rw [hcap] at hd
      simpa using hd
    have hb0 : blk = 0 := by
      rw [hcount] at hcnt
      apply countBits_eq_zero.mp
      omega
    subst hb0
    have hget : s.blocks.getD s.curIndex 0 = 0 := by
      rw [hcur, hblocks]
      rfl
    have hfind : nextFreeGo s.blocks s.size s.curIndex s.size
        = (some s.curIndex, s.curIndex) := by
      apply nextFreeGo_found
      · rw [hget]
        decide
      · rw [hsize]
        norm_num
    rw [MarkFree_found hroom hfind]
    refine ⟨hcap, hsize, hcur, BitBlock.mark 0 (BitBlock.ffz 0), ?_, by decide, ?_⟩
    · show s.blocks.set s.curIndex
        (BitBlock.mark (s.blocks.getD s.curIndex 0)
          (BitBlock.ffz (s.blocks.getD s.curIndex 0))) = _
      rw [hget, hcur, hblocks]
      rfl
    · show s.count + 1 = _
      have hm1 : BitBlock.mark 0 (BitBlock.ffz 0) = 1 := by decide
      have hc0 : countBits 0 = 0 := countBits_eq_zero.mpr rfl
      have hc1 : countBits 1 = 1 := by
        rw [countBits_unfold]
        norm_num [hc0]
      rw [hm1, hcount, hc0, hc1]
      norm_num
  · rw [MarkFree_noRoom (by simpa using hroom)]
    exact ⟨hcap, hsize, hcur, blk, hblocks, hblk, hcount⟩

theorem Inv1_Reset {s : BitArray} (h : Inv1 s) : Inv1 (Reset s) := by
  have hwf := inv1_wf h
  obtain ⟨hcap, hsize, hcur, blk, hblocks, hblk, hcount⟩ := h
  rw [Reset_eq hwf]
  refine ⟨hcap, hsize, hcur, 0, ?_, by norm_num, ?_⟩
  · show List.replicate s.size 0 = [0]
    rw [hsize]
    rfl
  · show (0 : Int) = (countBits 0 : Int)
    rw [countBits_eq_zero.mpr rfl]
    rfl

theorem Inv1_run (ops : List Op) : Inv1 (run (NewBitArray 1) ops) := by
  suffices h : ∀ (s : BitArray), Inv1 s → Inv1 (run s ops) from
    h _ Inv1_NewBitArray
  induction ops with
  | nil => exact fun s hs => hs
  | cons op ops ih =>
    intro s hs
    show Inv1 (run (applyOp s op) ops)
    apply ih
    cases op with
    | set i v => exact Inv1_Set hs i v
    | markFree => exact Inv1_MarkFree hs
    | reset => exact Inv1_Reset hs

theorem markFree_cap1 {s : BitArray} (h : Inv1 s) : (MarkFree s).2 < 1 := by
  obtain ⟨hcap, hsize, hcur, blk, hblocks, hblk, hcount⟩ := h
  by_cases hroom : HasRoom s
  · have hcnt : s.count < 1 := by
      have hd : decide (s.count < (s.capacity : Int)) = true := hroom
      rw [hcap] at hd
      simpa using hd
    have hb0 : blk = 0 := by
      rw [hcount] at hcnt
      apply countBits_eq_zero.mp
      omega
    subst hb0
    have hget : s.blocks.getD s.curIndex 0 = 0 := by
      rw [hcur, hblocks]
      rfl
    have hfind : nextFreeGo s.blocks s.size s.curIndex s.size
        = (some s.curIndex, s.curIndex) := by
      apply nextFreeGo_found
      · rw [hget]
        decide
      · rw [hsize]
        norm_num
    rw [MarkFree_found hroom hfind]
    show ((s.curIndex * blockSize + BitBlock.ffz (s.blocks.getD s.curIndex 0) : Nat)
      : Int) < 1
    rw [hget, hcur]
    decide
  · rw [MarkFree_noRoom (by simpa using hroom)]
    show (-1 : Int) < 1
    norm_num

/-- **C3 (counterexample).** The claim quantifies over every capacity, but for
capacity 1 no call sequence can make `MarkFree` return an index `≥ 1` at all
(every reachable capacity-1 state returns `-1` or `0`), regardless of the
occupied count. -/
theorem C3_counterexample :
    ¬ ∀ C : Nat, ∃ ops : List Op,
      (C : Int) ≤ (MarkFree (run (NewBitArray C) ops)).2 ∧
        (MarkFree (run (NewBitArray C) ops)).1.count ≤ (C : Int) := by
  intro hclaim
  obtain ⟨ops, h1, h2⟩ := hclaim 1
  have hlt := markFree_cap1 (Inv1_run ops)
  omega

/-- **C3 (amended).** Spill indices in `[C, 64*(C/64+1))` are accepted and
acted on by `Set` and `Get` for every capacity `C`; and for some capacities —
capacity 129 with a `Reset`-containing call sequence — `MarkFree` does return
an index `≥ C` (namely 129) while the occupied count stays `≤ C`.  (It does
not happen for every capacity: see the capacity-1 counterexample.) -/
theorem C3_spill (C i : Nat) (h1 : C ≤ i)
    (h2 : i < blockSize * (C / blockSize + 1)) :
    ((Set (NewBitArray C) i true).2 = true ∧
      Get (Set (NewBitArray C) i true).1 i = true) ∧
      ∃ s, Reachable s ∧ s.capacity = 129 ∧
        (129 : Int) ≤ (MarkFree s).2 ∧ (MarkFree s).1.count ≤ (129 : Int) := by
  have hw : i / blockSize < (NewBitArray C).size := by
    show i / blockSize < C / blockSize + 1
    have hd : i / blockSize ≤ (blockSize * (C / blockSize + 1) - 1) / blockSize :=
      Nat.div_le_div_right (by omega)
    have he : (blockSize * (C / blockSize + 1) - 1) / blockSize = C / blockSize := by
      simp only [blockSize]
      omega
    omega
  constructor
  · constructor
    · rw [set_changed_eq hw true]
      have hfresh : Get (NewBitArray C) i = false := by
        rw [Get_eq hw]
        show ((List.replicate (C / blockSize + 1) 0).getD (i / blockSize) 0).testBit
          (i % blockSize) = false
        rw [getD_replicate, Nat.zero_testBit]
      rw [hfresh]
      rfl
    · exact get_set_self (WF_NewBitArray C) hw true
  · refine ⟨run (NewBitArray 129) spillOps, ⟨129, spillOps, rfl⟩, by decide, ?_, ?_⟩
    · decide
    · decide

/-- **C3 witness.** Concrete spill access at capacity 10, index 11. -/
theorem C3_witness :
    10 ≤ 11 ∧ 11 < blockSize * (10 / blockSize + 1) ∧
      ((Set (NewBitArray 10) 11 true).2 = true ∧
        Get (Set (NewBitArray 10) 11 true).1 11 = true) := by
  have h := C3_spill 10 11 (by omega) (by decide)
  exact ⟨by omega, by decide, h.1⟩

end BitArr
